import Mathlib

/-!
# Verification of the Simulation-Blockchain core

A shallow embedding of the repository's core (`core/merkle.py`,
`core/models.py`, `core/Blockchain.py`) together with proofs and refutations
of the frozen specification claims.

Modelling conventions:

* SHA-256 digests are modelled as a free term algebra (`Digest`): the digest
  of the canonical JSON of a transaction, of a block header, of a
  concatenated pair of digests, of the empty byte string, and the all-zero
  sentinel are pairwise distinct terms, and each hash constructor is
  injective.  This idealizes SHA-256 as collision-free, which is the standard
  symbolic model; every other part of the code is translated literally.
* Whether a given digest has `difficulty` leading zero hex digits
  (`h.startswith("0" * difficulty)`) depends on the actual bit pattern of
  SHA-256 output, so the proof-of-work predicate is an abstract parameter
  (`Env.powOk`), as is the cryptographic part of signature verification
  (`Env.sigOk`, covering base64 decoding, the pubkey/address binding and
  `Wallet.verify` of `core/wallet.py`).
* Python `dict[str, int]` becomes an insertion-ordered association list with
  `get`-with-default-0 and in-place update, mirroring dict semantics.
* The two unbounded `while` loops (the Merkle level fold, which terminates,
  and the proof-of-work nonce search, which need not) take explicit fuel;
  for the Merkle fold the fuel `hashes.length` is always sufficient.
* Python floats (`time.time()` timestamps) only ever flow into hashes, so
  timestamps are modelled as integers supplied by the caller.
-/

/-- The reserved minting sender (`core/models.py`, `COINBASE = "COINBASE"`). -/
def COINBASE : String := "COINBASE"

/-- Free term algebra of SHA-256 hex digests.  `txH` is the digest of the
canonical JSON of all seven transaction fields (`Transaction.txid`),
`headerH` the digest of the canonical JSON of the six block-header fields
(`Block.block_hash`), `pairH` the digest of the utf-8 concatenation of two
hex digests (`Merkle._hash_pair`), `emptyH` the digest of the empty byte
string (`Merkle.root([])`), and `zero64` the `"0" * 64` previous-hash
sentinel.  Constructor injectivity and disjointness idealize SHA-256 (and
the canonical JSON encoding) as collision-free. -/
inductive Digest where
  | emptyH : Digest
  | zero64 : Digest
  | pairH (a b : Digest) : Digest
  | txH (sender recipient : String) (amount nonce timestamp : Int)
      (pubkey sig : String) : Digest
  | headerH (height : Nat) (prev : Digest) (timestamp : Int) (nonce : Nat)
      (difficulty : Nat) (root : Digest) : Digest
deriving DecidableEq

instance : Inhabited Digest := ⟨Digest.emptyH⟩

/-! ## The Merkle engine (`core/merkle.py`) -/

namespace Merkle

/-- Source: `Merkle._hash_pair(a, b) = sha256_hex((a + b).encode())`. -/
def hashPair (a b : Digest) : Digest := Digest.pairH a b

/-- Source: `if len(level) % 2 == 1: level.append(level[-1])` — pad an odd level by
duplicating its last element. -/
def pad (l : List Digest) : List Digest :=
  if l.length % 2 = 1 then l ++ [l.getLastD Digest.emptyH] else l

/-- Source: `for i in range(0, len(level), 2): nxt.append(_hash_pair(level[i], level[i+1]))`
— combine adjacent elements.  Only ever applied to even-length (padded)
levels; a stray unpaired element is dropped, matching no reachable case. -/
def pairUp : List Digest → List Digest
  | a :: b :: rest => hashPair a b :: pairUp rest
  | _ => []

/-- The `while len(level) > 1` loop of `Merkle.root`, with fuel.  Fuel
`level.length` is always sufficient (each round strictly shrinks a
two-or-more-element level). -/
def rootFuel : Nat → List Digest → Digest
  | _, [] => Digest.emptyH
  | _, [a] => a
  | 0, _ :: _ :: _ => Digest.emptyH
  | f + 1, a :: b :: rest => rootFuel f (pairUp (pad (a :: b :: rest)))

/-- Source `Merkle.root`: the empty list yields `sha256_hex(b"")`; otherwise fold
levels until one digest remains. -/
def root (hashes : List Digest) : Digest :=
  if hashes = [] then Digest.emptyH else rootFuel hashes.length hashes

/-- First index of `target` (`hashes.index(target)`). -/
def idxOf (target : Digest) : List Digest → Nat
  | [] => 0
  | h :: r => if h = target then 0 else idxOf target r + 1

/-- The level-walking loop of `Merkle.proof`, with fuel: record the sibling
`level[idx ^ 1]` of the tracked position together with its side (`"L"` when
the sibling index is smaller), then move one level up. -/
def proofFuel : Nat → List Digest → Nat → List (Digest × String)
  | _, [], _ => []
  | _, [_], _ => []
  | 0, _ :: _ :: _, _ => []
  | f + 1, a :: b :: rest, idx =>
    let lv := pad (a :: b :: rest)
    let sib := idx ^^^ 1
    (lv.getD sib Digest.emptyH, if sib < idx then "L" else "R")
      :: proofFuel f (pairUp lv) (idx / 2)

/-- Source `Merkle.proof(hashes, target)`: `None` when absent, else the recorded
sibling path starting at the first occurrence of `target`. -/
def proof (hashes : List Digest) (target : Digest) :
    Option (List (Digest × String)) :=
  if target ∈ hashes then some (proofFuel hashes.length hashes (idxOf target hashes))
  else none

/-- One step of `Merkle.verify_proof`'s fold: combine with the sibling in the
recorded order (`sibling + cur` for `"L"`, else `cur + sibling`). -/
def verifyStep (cur : Digest) (p : Digest × String) : Digest :=
  if p.2 = "L" then hashPair p.1 cur else hashPair cur p.1

/-- Source `Merkle.verify_proof(target, proof_path, root)`. -/
def verify_proof (target : Digest) (path : List (Digest × String))
    (expected : Digest) : Bool :=
  (path.foldl verifyStep target) = expected

end Merkle

/-! ### Merkle lemmas -/

namespace Merkle

theorem pad_length (l : List Digest) : (pad l).length % 2 = 0 := by
  unfold pad
  split
  · simp only [List.length_append, List.length_cons, List.length_nil]
    omega
  · omega

theorem pad_length_le (l : List Digest) : (pad l).length ≤ l.length + 1 := by
  unfold pad
  split <;> simp

theorem length_le_pad (l : List Digest) : l.length ≤ (pad l).length := by
  unfold pad
  split <;> simp

theorem pad_getD (l : List Digest) (k : Nat) (hk : k < l.length) (d : Digest) :
    (pad l).getD k d = l.getD k d := by
  unfold pad
  split
  · rw [List.getD_eq_getElem?_getD, List.getD_eq_getElem?_getD,
      List.getElem?_append, if_pos hk]
  · rfl

theorem pairUp_length : ∀ l : List Digest, (pairUp l).length = l.length / 2
  | [] => by simp [pairUp]
  | [_] => by simp [pairUp]
  | _ :: _ :: rest => by
    simp only [pairUp, List.length_cons, pairUp_length rest]
    omega

theorem pairUp_getD (d : Digest) :
    ∀ (l : List Digest) (m : Nat), 2 * m + 1 < l.length →
      (pairUp l).getD m d = hashPair (l.getD (2 * m) d) (l.getD (2 * m + 1) d)
  | [], m, h => by simp at h
  | [_], m, h => by simp only [List.length_cons, List.length_nil] at h; omega
  | a :: b :: rest, 0, _ => by simp [pairUp]
  | a :: b :: rest, m + 1, h => by
    have hr : 2 * m + 1 < rest.length := by
      simp only [List.length_cons] at h; omega
    have : 2 * (m + 1) = 2 * m + 1 + 1 := by omega
    simp only [pairUp, List.getD_cons_succ, this, pairUp_getD d rest m hr]

end Merkle

namespace Merkle

theorem xor_one_of_even {n : Nat} (h : n % 2 = 0) : n ^^^ 1 = n + 1 := by
  apply Nat.eq_of_testBit_eq
  intro i
  cases i with
  | zero =>
    simp only [Nat.testBit_xor, Nat.testBit_zero]
    have h1 : (n + 1) % 2 = 1 := by omega
    simp [h, h1]
  | succ i =>
    simp only [Nat.testBit_add_one, Nat.xor_div_two]
    have h1 : (1 : Nat) / 2 = 0 := by norm_num
    have h2 : (n + 1) / 2 = n / 2 := by omega
    simp [h1, h2]

theorem xor_one_of_odd {n : Nat} (h : n % 2 = 1) : n ^^^ 1 = n - 1 := by
  apply Nat.eq_of_testBit_eq
  intro i
  cases i with
  | zero =>
    simp only [Nat.testBit_xor, Nat.testBit_zero]
    have h1 : (n - 1) % 2 = 0 := by omega
    simp [h, h1]
    omega
  | succ i =>
    simp only [Nat.testBit_add_one, Nat.xor_div_two]
    have h1 : (1 : Nat) / 2 = 0 := by norm_num
    have h2 : (n - 1) / 2 = n / 2 := by omega
    simp [h1, h2]

/-- The accumulated hash tracked by `verify_proof` moves up the levels in
lockstep with the position tracked by `proof`: folding the recorded path
from the digest at `idx` reproduces the root of the level fold. -/
theorem proofFuel_foldl :
    ∀ (f : Nat) (l : List Digest) (idx : Nat), idx < l.length →
      l.length ≤ f + 1 →
      (proofFuel f l idx).foldl verifyStep (l.getD idx Digest.emptyH) =
        rootFuel f l
  | _, [], idx, hidx, _ => by simp at hidx
  | f, [a], idx, hidx, _ => by
    have : idx = 0 := by simpa using hidx
    subst this
    simp [proofFuel, rootFuel]
  | 0, a :: b :: rest, idx, hidx, hf => by
    simp only [List.length_cons] at hf
    omega
  | f + 1, a :: b :: rest, idx, hidx, hf => by
    have hlen2 : 2 ≤ (a :: b :: rest).length := by simp
    set l := a :: b :: rest with hl
    set lv := pad l with hlv
    have hpadlen : lv.length % 2 = 0 := pad_length l
    have hlelv : l.length ≤ lv.length := length_le_pad l
    have hlvle : lv.length ≤ l.length + 1 := pad_length_le l
    have hidxlv : idx < lv.length := Nat.lt_of_lt_of_le hidx hlelv
    have hstep :
        verifyStep (l.getD idx Digest.emptyH)
          (lv.getD (idx ^^^ 1) Digest.emptyH,
            if idx ^^^ 1 < idx then "L" else "R") =
        (pairUp lv).getD (idx / 2) Digest.emptyH := by
      have hldg : l.getD idx Digest.emptyH = lv.getD idx Digest.emptyH :=
        (pad_getD l idx hidx Digest.emptyH).symm
      rcases Nat.even_or_odd idx with he | ho
      · have hmod : idx % 2 = 0 := Nat.even_iff.mp he
        have hsib : idx ^^^ 1 = idx + 1 := xor_one_of_even hmod
        have hside : ¬ (idx ^^^ 1 < idx) := by omega
        have hdiv : 2 * (idx / 2) = idx := by omega
        have hbound : 2 * (idx / 2) + 1 < lv.length := by omega
        rw [pairUp_getD Digest.emptyH lv (idx / 2) hbound]
        simp only [verifyStep, hsib, if_neg hside, hdiv, hldg]
        rw [if_neg (by simp)]
      · have hmod : idx % 2 = 1 := Nat.odd_iff.mp ho
        have hsib : idx ^^^ 1 = idx - 1 := xor_one_of_odd hmod
        have hlt : idx - 1 < idx := by omega
        have hdiv : 2 * (idx / 2) = idx - 1 := by omega
        have h1x : idx - 1 + 1 = idx := by omega
        have hbound : 2 * (idx / 2) + 1 < lv.length := by omega
        rw [pairUp_getD Digest.emptyH lv (idx / 2) hbound]
        rw [hsib, if_pos hlt, hdiv, h1x, hldg]
        simp [verifyStep]
    have hreclen : (pairUp lv).length = lv.length / 2 := pairUp_length lv
    have hrecidx : idx / 2 < (pairUp lv).length := by
      rw [hreclen]; omega
    have hrecfuel : (pairUp lv).length ≤ f + 1 := by
      have : l.length ≤ f + 2 := hf
      rw [hreclen]
      omega
    calc (proofFuel (f + 1) l idx).foldl verifyStep (l.getD idx Digest.emptyH)
        = (proofFuel f (pairUp lv) (idx / 2)).foldl verifyStep
            ((pairUp lv).getD (idx / 2) Digest.emptyH) := by
          rw [hl]
          simp only [proofFuel, List.foldl_cons]
          rw [← hl, ← hlv, hstep]
      _ = rootFuel f (pairUp lv) :=
          proofFuel_foldl f (pairUp lv) (idx / 2) hrecidx hrecfuel
      _ = rootFuel (f + 1) l := by rw [hl]; simp only [rootFuel, ← hlv]

theorem idxOf_lt_length {target : Digest} :
    ∀ {l : List Digest}, target ∈ l → idxOf target l < l.length := by
  intro l h
  induction l with
  | nil => simp at h
  | cons a r ih =>
    by_cases ha : a = target
    · simp [idxOf, ha]
    · have : target ∈ r := by
        rcases List.mem_cons.mp h with h1 | h1
        · exact absurd h1.symm ha
        · exact h1
      simp only [idxOf, if_neg ha, List.length_cons]
      exact Nat.succ_lt_succ (ih this)

theorem getD_idxOf {target : Digest} :
    ∀ {l : List Digest}, target ∈ l →
      l.getD (idxOf target l) Digest.emptyH = target := by
  intro l h
  induction l with
  | nil => simp at h
  | cons a r ih =>
    by_cases ha : a = target
    · simp [idxOf, ha]
    · have : target ∈ r := by
        rcases List.mem_cons.mp h with h1 | h1
        · exact absurd h1.symm ha
        · exact h1
      simp only [idxOf, if_neg ha, List.getD_cons_succ]
      exact ih this

end Merkle

namespace Merkle

theorem exists_getD_ne_of_ne {l1 l2 : List Digest}
    (hlen : l1.length = l2.length) (hne : l1 ≠ l2) :
    ∃ k, k < l1.length ∧ l1.getD k Digest.emptyH ≠ l2.getD k Digest.emptyH := by
  by_contra hall
  push_neg at hall
  apply hne
  apply List.ext_getElem hlen
  intro i h1 h2
  have := hall i h1
  rw [List.getD_eq_getElem?_getD, List.getD_eq_getElem?_getD,
    List.getElem?_eq_getElem h1, List.getElem?_eq_getElem h2] at this
  simpa using this

theorem pad_length_eq {l1 l2 : List Digest} (hlen : l1.length = l2.length) :
    (pad l1).length = (pad l2).length := by
  unfold pad
  rw [hlen]
  split <;> simp [hlen]

/-- Two same-length levels that differ somewhere still differ after one
pad-and-pair round, at the halved index. -/
theorem pairUp_pad_ne {l1 l2 : List Digest} {k : Nat}
    (hlen : l1.length = l2.length) (hk : k < l1.length)
    (hne : l1.getD k Digest.emptyH ≠ l2.getD k Digest.emptyH) :
    ∃ m, m < (pairUp (pad l1)).length ∧
      (pairUp (pad l1)).getD m Digest.emptyH ≠
        (pairUp (pad l2)).getD m Digest.emptyH := by
  have hpe : (pad l1).length = (pad l2).length := pad_length_eq hlen
  have hev : (pad l1).length % 2 = 0 := pad_length l1
  have hk1 : k < (pad l1).length := Nat.lt_of_lt_of_le hk (length_le_pad l1)
  have hb : 2 * (k / 2) + 1 < (pad l1).length := by omega
  have hb2 : 2 * (k / 2) + 1 < (pad l2).length := by omega
  refine ⟨k / 2, ?_, ?_⟩
  · rw [pairUp_length]
    omega
  · rw [pairUp_getD Digest.emptyH (pad l1) (k / 2) hb,
      pairUp_getD Digest.emptyH (pad l2) (k / 2) hb2]
    have hg1 : (pad l1).getD k Digest.emptyH = l1.getD k Digest.emptyH :=
      pad_getD l1 k hk Digest.emptyH
    have hg2 : (pad l2).getD k Digest.emptyH = l2.getD k Digest.emptyH :=
      pad_getD l2 k (hlen ▸ hk) Digest.emptyH
    simp only [hashPair, ne_eq, Digest.pairH.injEq, not_and]
    rcases Nat.even_or_odd k with he | ho
    · have h2k : 2 * (k / 2) = k := by
        have := Nat.even_iff.mp he
        omega
      intro hfst _
      rw [h2k, hg1, hg2] at hfst
      exact hne hfst
    · have h2k : 2 * (k / 2) + 1 = k := by
        have := Nat.odd_iff.mp ho
        omega
      intro _ hsnd
      rw [h2k, hg1, hg2] at hsnd
      exact hne hsnd

/-- The level fold is injective on same-length level lists: with the pairing
hash treated as collision-free, levels that differ somewhere fold to
different roots. -/
theorem rootFuel_ne :
    ∀ (f : Nat) (l1 l2 : List Digest), l1.length = l2.length →
      l1.length ≤ f + 1 →
      (∃ k, k < l1.length ∧
        l1.getD k Digest.emptyH ≠ l2.getD k Digest.emptyH) →
      rootFuel f l1 ≠ rootFuel f l2
  | _, [], _, _, _, h => by
    obtain ⟨k, hk, _⟩ := h
    simp at hk
  | f, [a], l2, hlen, _, h => by
    obtain ⟨k, hk, hne⟩ := h
    cases l2 with
    | nil => simp at hlen
    | cons b t =>
      cases t with
      | nil =>
        have hk0 : k = 0 := by simp only [List.length_cons, List.length_nil] at hk; omega
        subst hk0
        simpa [rootFuel] using hne
      | cons c u => simp at hlen
  | 0, a :: b :: r, l2, hlen, hf, h => by
    simp only [List.length_cons] at hf
    omega
  | f + 1, a :: b :: r, l2, hlen, hf, h => by
    obtain ⟨k, hk, hne⟩ := h
    cases l2 with
    | nil => simp at hlen
    | cons c t =>
      cases t with
      | nil => simp at hlen
      | cons d s =>
        obtain ⟨m, hm, hmne⟩ := pairUp_pad_ne hlen hk hne
        have hplen : (pairUp (pad (a :: b :: r))).length =
            (pairUp (pad (c :: d :: s))).length := by
          rw [pairUp_length, pairUp_length, pad_length_eq hlen]
        have hfuel : (pairUp (pad (a :: b :: r))).length ≤ f + 1 := by
          have h1 := pad_length_le (a :: b :: r)
          have h2 := pairUp_length (pad (a :: b :: r))
          simp only [List.length_cons] at hf h1 ⊢
          omega
        have hrec := rootFuel_ne f (pairUp (pad (a :: b :: r)))
          (pairUp (pad (c :: d :: s))) hplen hfuel ⟨m, hm, hmne⟩
        simpa only [rootFuel] using hrec

/-- The function `Merkle.root` is injective on nonempty same-length leaf lists. -/
theorem root_ne_of_ne {l1 l2 : List Digest} (hlen : l1.length = l2.length)
    (hne : l1 ≠ l2) (h1 : l1 ≠ []) : root l1 ≠ root l2 := by
  have h2 : l2 ≠ [] := by
    intro h
    subst h
    simp at hlen
    exact h1 hlen
  rw [root, root, if_neg h1, if_neg h2]
  obtain ⟨k, hk, hkne⟩ := exists_getD_ne_of_ne hlen hne
  rw [← hlen]
  exact rootFuel_ne l1.length l1 l2 hlen (by omega) ⟨k, hk, hkne⟩

end Merkle

/-- C1: for every non-empty list of leaf hashes and every leaf occurring in
it, `Merkle.proof(leaves, leaf)` returns a proof (not `None`), and
`Merkle.verify_proof(leaf, proof, Merkle.root(leaves))` returns true. -/
theorem merkle_proof_roundtrip (leaves : List Digest) (leaf : Digest)
    (hne : leaves ≠ []) (hmem : leaf ∈ leaves) :
    ∃ p, Merkle.proof leaves leaf = some p ∧
      Merkle.verify_proof leaf p (Merkle.root leaves) = true := by
  refine ⟨Merkle.proofFuel leaves.length leaves (Merkle.idxOf leaf leaves),
    ?_, ?_⟩
  · rw [Merkle.proof, if_pos hmem]
  · have h1 := Merkle.proofFuel_foldl leaves.length leaves
      (Merkle.idxOf leaf leaves) (Merkle.idxOf_lt_length hmem) (by omega)
    rw [Merkle.getD_idxOf hmem] at h1
    rw [Merkle.verify_proof, Merkle.root, if_neg hne]
    simp [h1]

/-- Witness for C1 at a concrete three-leaf list. -/
theorem merkle_proof_roundtrip_witness :
    ∃ p, Merkle.proof [Digest.zero64, Digest.emptyH, Digest.pairH Digest.zero64 Digest.zero64] Digest.emptyH = some p ∧
      Merkle.verify_proof Digest.emptyH p
        (Merkle.root [Digest.zero64, Digest.emptyH, Digest.pairH Digest.zero64 Digest.zero64]) = true :=
  merkle_proof_roundtrip _ _ (by decide) (by decide)

/-! ## Transactions and blocks (`core/models.py`) -/

/-- Source `Transaction` (`core/models.py`).  `amount` and `nonce` are Python ints;
the float `timestamp` only flows into hashes and is modelled as an integer.
`pubkey_b64`/`sig_b64` default to `""` for coinbase transactions. -/
structure Tx where
  sender : String
  recipient : String
  amount : Int
  nonce : Int
  timestamp : Int
  pubkey_b64 : String
  sig_b64 : String
deriving DecidableEq

/-- Source `Transaction.txid`: digest of the canonical JSON of all fields including
the signature. -/
def Tx.txid (t : Tx) : Digest :=
  Digest.txH t.sender t.recipient t.amount t.nonce t.timestamp
    t.pubkey_b64 t.sig_b64

/-- Source `Block` (`core/models.py`).  `height` equals a list position and `nonce`
is the mining counter, both non-negative. -/
structure Block where
  height : Nat
  prev_hash : Digest
  timestamp : Int
  nonce : Nat
  difficulty : Nat
  merkle_root : Digest
  transactions : List Tx
deriving DecidableEq

/-- Source `Block.block_hash`: digest of the canonical JSON of the six header
fields only — the transaction list is excluded, bound in via `merkle_root`. -/
def Block.block_hash (b : Block) : Digest :=
  Digest.headerH b.height b.prev_hash b.timestamp b.nonce b.difficulty
    b.merkle_root

/-! ## Ledger state (`Dict[str, int]` in `core/Blockchain.py`) -/

/-- A Python `dict[str, int]`: insertion-ordered association list with
unique keys. -/
abbrev StateMap := List (String × Int)

/-- Python `d.get(k, 0)`. -/
def mget (m : StateMap) (k : String) : Int :=
  match m with
  | [] => 0
  | (k', v) :: r => if k' = k then v else mget r k

/-- Python `d[k] = v`: update in place when the key exists (Python dicts keep the
original insertion position), else append. -/
def mset (m : StateMap) (k : String) (v : Int) : StateMap :=
  match m with
  | [] => [(k, v)]
  | (k', v') :: r => if k' = k then (k, v) :: r else (k', v') :: mset r k v

/-! ## The `Blockchain` class (`core/Blockchain.py`) -/

/-- The abstract cryptographic environment.  `powOk h d` is
`h.startswith("0" * d)` — which digests have `d` leading zero hex digits is
a fact about concrete SHA-256 output, left abstract.  `sigOk tx` is the
non-coinbase tail of `verify_transaction` (base64-decode pubkey and
signature, `sha256_hex(pub) == tx.sender`, `Wallet.verify(pub, message,
sig)` — `core/wallet.py`), reached only when both fields are non-empty. -/
structure Env where
  powOk : Digest → Nat → Bool
  sigOk : Tx → Bool

/-- The mutable state of a `Blockchain` object. -/
structure Chain where
  difficulty : Nat
  reward : Int
  chain : List Block
  mempool : List Tx
  balances : StateMap
  next_nonce : StateMap
deriving DecidableEq

/-- Source `Blockchain.__init__(difficulty, reward)`. -/
def Chain.init (difficulty : Nat) (reward : Int) : Chain :=
  ⟨difficulty, reward, [], [], [], []⟩

/-- Source: `self.chain[-1].block_hash() if self.chain else "0" * 64`. -/
def tipHash (c : List Block) : Digest :=
  match c.getLast? with
  | none => Digest.zero64
  | some b => b.block_hash

/-- Source `Blockchain.expected_nonce(addr) = next_nonce.get(addr, 0)`. -/
def expected_nonce (bc : Chain) (addr : String) : Int :=
  mget bc.next_nonce addr

/-- Source `Blockchain.verify_transaction`: non-positive amounts fail; coinbase
passes unconditionally; otherwise both base64 fields must be non-empty and
the cryptographic checks (`Env.sigOk`) must pass. -/
def verify_transaction (env : Env) (tx : Tx) : Bool :=
  if tx.amount ≤ 0 then false
  else if tx.sender = COINBASE then true
  else if tx.pubkey_b64 = "" || tx.sig_b64 = "" then false
  else env.sigOk tx

/-- Source `Blockchain._apply_tx(tx, balances, nonces)`: pure state transformer on
a (balances, nonces) pair; returns the flag and the (possibly updated)
maps.  On every `False` path the Python code has not touched the dicts, so
the input maps are returned unchanged. -/
def applyTx (tx : Tx) (bal non : StateMap) : Bool × StateMap × StateMap :=
  if tx.amount ≤ 0 then (false, bal, non)
  else if tx.sender = COINBASE then
    (true, mset bal tx.recipient (mget bal tx.recipient + tx.amount), non)
  else
    let exp := mget non tx.sender
    if tx.nonce ≠ exp then (false, bal, non)
    else
      let sender_bal := mget bal tx.sender
      if sender_bal < tx.amount then (false, bal, non)
      else
        let bal1 := mset bal tx.sender (sender_bal - tx.amount)
        let bal2 := mset bal1 tx.recipient (mget bal1 tx.recipient + tx.amount)
        (true, bal2, mset non tx.sender (exp + 1))

/-- Source: `for tx in txs: if not self._apply_tx(tx, bal, non): return False` — the
sequential replay used by `add_to_mempool`, `verify_block` and `add_block`;
stops at the first failure, returning the maps as mutated so far. -/
def applyFold : List Tx → StateMap → StateMap → Bool × StateMap × StateMap
  | [], bal, non => (true, bal, non)
  | t :: r, bal, non =>
    match applyTx t bal non with
    | (true, bal', non') => applyFold r bal' non'
    | (false, bal', non') => (false, bal', non')

/-- The interleaved per-transaction loop of `is_valid` and `load`:
`verify_transaction` then `_apply_tx` for each transaction in turn. -/
def ivFold (env : Env) : List Tx → StateMap → StateMap → Bool × StateMap × StateMap
  | [], bal, non => (true, bal, non)
  | t :: r, bal, non =>
    if ¬ verify_transaction env t then (false, bal, non)
    else match applyTx t bal non with
      | (true, bal', non') => ivFold env r bal' non'
      | (false, bal', non') => (false, bal', non')

/-- Source `Blockchain.add_to_mempool(tx)`: verify, reject duplicate txids and
coinbase senders, then replay the whole pending mempool plus the candidate
against copies of the live maps; append to the mempool only when every step
succeeds. -/
def add_to_mempool (env : Env) (bc : Chain) (tx : Tx) : Bool × Chain :=
  if ¬ verify_transaction env tx then (false, bc)
  else if bc.mempool.any (fun p => p.txid = tx.txid) then (false, bc)
  else if tx.sender = COINBASE then (false, bc)
  else
    match applyFold bc.mempool bc.balances bc.next_nonce with
    | (true, tmpBal, tmpNon) =>
      match applyTx tx tmpBal tmpNon with
      | (true, _, _) => (true, { bc with mempool := bc.mempool ++ [tx] })
      | (false, _, _) => (false, bc)
    | (false, _, _) => (false, bc)

/-- The coinbase transaction minted by `_make_block` and checked by
`verify_block`. -/
def coinbaseTx (recipient : String) (amount : Int) (ts : Int) : Tx :=
  ⟨COINBASE, recipient, amount, 0, ts, "", ""⟩

/-- Source `Blockchain._make_block(txs, miner_addr)`: at height > 0 prepend the
block-reward coinbase; commit to the ordered txids via the merkle root. -/
def make_block (bc : Chain) (txs : List Tx) (miner_addr : String)
    (ts : Int) : Block :=
  let height := bc.chain.length
  let prev_hash := tipHash bc.chain
  let txs' := if height > 0 then coinbaseTx miner_addr bc.reward ts :: txs else txs
  { height := height, prev_hash := prev_hash, timestamp := ts, nonce := 0,
    difficulty := bc.difficulty,
    merkle_root := Merkle.root (txs'.map Tx.txid), transactions := txs' }

/-- The coinbase-placement rules, textually identical in `verify_block`
(keyed on `block.height`) and in `is_valid` (keyed on the loop index): at
height 0 every transaction is coinbase; above, the list is non-empty, its
head is a coinbase paying exactly the configured reward, and no later entry
is coinbase. -/
def coinbaseRule (reward : Int) (height : Nat) (txs : List Tx) : Bool :=
  if height = 0 then txs.all (fun tx => tx.sender = COINBASE)
  else
    match txs with
    | [] => false
    | t0 :: rest =>
      t0.sender = COINBASE && t0.amount = reward &&
        rest.all (fun tx => ¬ tx.sender = COINBASE)

/-- Source `Blockchain.verify_block(block)`: height slot, previous-hash link,
recomputed merkle root, proof-of-work, coinbase placement (by the block's
own height field), per-transaction verification, and a full replay against
copies of the live maps. -/
def verify_block (env : Env) (bc : Chain) (b : Block) : Bool :=
  b.height = bc.chain.length &&
  b.prev_hash = tipHash bc.chain &&
  Merkle.root (b.transactions.map Tx.txid) = b.merkle_root &&
  env.powOk b.block_hash b.difficulty &&
  coinbaseRule bc.reward b.height b.transactions &&
  b.transactions.all (fun tx => verify_transaction env tx) &&
  (applyFold b.transactions bc.balances bc.next_nonce).1

/-- Source `Blockchain.add_block(block)`: verify, then replay the same transactions
against the live maps (stopping at the first failure, which leaves the
partial mutation in place exactly as the Python code does), and append the
block only when the whole replay succeeds. -/
def add_block (env : Env) (bc : Chain) (b : Block) : Bool × Chain :=
  if ¬ verify_block env bc b then (false, bc)
  else
    match applyFold b.transactions bc.balances bc.next_nonce with
    | (true, bal', non') =>
      (true, { bc with chain := bc.chain ++ [b], balances := bal', next_nonce := non' })
    | (false, bal', non') =>
      (false, { bc with balances := bal', next_nonce := non' })

/-- The nonce search loop of `mine_pending` / `create_and_add_genesis`, with
fuel: try nonces `n, n+1, ...` until the proof-of-work predicate accepts the
header hash.  `none` models the Python loop still running (it never returns
on a fuel-exhausting instance). -/
def powSearch (env : Env) (b : Block) : Nat → Nat → Option Nat
  | n, 0 =>
    if env.powOk (Block.block_hash { b with nonce := n }) b.difficulty
    then some n else none
  | n, f + 1 =>
    if env.powOk (Block.block_hash { b with nonce := n }) b.difficulty
    then some n else powSearch env b (n + 1) f

/-- Source `Blockchain.mine_pending(miner_addr, max_txs)`: draw the oldest
`max_txs` mempool entries, build and mine a candidate block, submit it via
`add_block`; on success drop exactly the mined txids from the mempool. -/
def mine_pending (env : Env) (bc : Chain) (miner_addr : String) (ts : Int)
    (max_txs fuel : Nat) : Option Block × Chain :=
  let txs := bc.mempool.take max_txs
  let b0 := make_block bc txs miner_addr ts
  match powSearch env b0 0 fuel with
  | none => (none, bc)
  | some n =>
    let b := { b0 with nonce := n }
    match add_block env bc b with
    | (true, bc') =>
      let mined := txs.map Tx.txid
      (some b, { bc' with
        mempool := bc'.mempool.filter (fun t => ¬ mined.contains t.txid) })
    | (false, bc') => (none, bc')

/-- The per-block body of the `is_valid` replay loop: previous-hash link,
proof-of-work, merkle root, coinbase placement at chain position `pos`,
then the interleaved verify-and-apply transaction loop. -/
def validStep (env : Env) (reward : Int) (pos : Nat) (prev : Digest)
    (bal non : StateMap) (b : Block) : Option (Digest × StateMap × StateMap) :=
  if b.prev_hash ≠ prev then none
  else if ¬ env.powOk b.block_hash b.difficulty then none
  else if Merkle.root (b.transactions.map Tx.txid) ≠ b.merkle_root then none
  else if ¬ coinbaseRule reward pos b.transactions then none
  else match ivFold env b.transactions bal non with
    | (true, bal', non') => some (b.block_hash, bal', non')
    | (false, _, _) => none

/-- The `for i, block in enumerate(self.chain)` loop of `is_valid`, replaying
from an empty baseline. -/
def validRun (env : Env) (reward : Int) :
    Nat → Digest → StateMap → StateMap → List Block →
    Option (Digest × StateMap × StateMap)
  | _, prev, bal, non, [] => some (prev, bal, non)
  | pos, prev, bal, non, b :: rest =>
    match validStep env reward pos prev bal non b with
    | some (prev', bal', non') => validRun env reward (pos + 1) prev' bal' non' rest
    | none => none

/-- Source `Blockchain.is_valid()`. -/
def is_valid (env : Env) (bc : Chain) : Bool :=
  (validRun env bc.reward 0 Digest.zero64 [] [] bc.chain).isSome

/-- The per-block body of the `load` replay loop — like `validStep` but
**without** the coinbase-placement rules, which `load` does not re-check. -/
def loadStep (env : Env) (prev : Digest) (bal non : StateMap) (b : Block) :
    Option (Digest × StateMap × StateMap) :=
  if b.prev_hash ≠ prev then none
  else if ¬ env.powOk b.block_hash b.difficulty then none
  else if Merkle.root (b.transactions.map Tx.txid) ≠ b.merkle_root then none
  else match ivFold env b.transactions bal non with
    | (true, bal', non') => some (b.block_hash, bal', non')
    | (false, _, _) => none

/-- The block loop of `load`. -/
def loadRun (env : Env) :
    Digest → StateMap → StateMap → List Block →
    Option (Digest × StateMap × StateMap)
  | prev, bal, non, [] => some (prev, bal, non)
  | prev, bal, non, b :: rest =>
    match loadStep env prev bal non b with
    | some (prev', bal', non') => loadRun env prev' bal' non' rest
    | none => none

/-- What the filesystem and JSON layer hand to `load` (§6 interface
boundary): a missing file (`FileNotFoundError`, the one exception `load`
catches), an unparseable or malformed file (`json.load` or
`Block.from_dict` raises — **not** caught), or a parsed block list (the
de-serialization `Block.from_dict ∘ Block.to_dict` round-trips every field,
so a parsed chain is just a `List Block`). -/
inductive LoadInput where
  | fileNotFound : LoadInput
  | parseError : LoadInput
  | parsed (bs : List Block) : LoadInput

/-- How a `load` call terminates: a returned boolean, or a propagated
exception. -/
inductive LoadRes where
  | ret (b : Bool) : LoadRes
  | exc : LoadRes
deriving DecidableEq

/-- Source `Blockchain.load(path)`: replay the parsed chain from an empty baseline
(prev-hash, PoW, merkle, per-transaction verify + apply); commit the chain,
the derived maps and an emptied mempool only if every block passes,
otherwise return `False` with the in-memory state untouched.  A missing
file returns `False`; any other read/parse failure propagates as an
exception (only `FileNotFoundError` is caught). -/
def load (env : Env) (bc : Chain) : LoadInput → LoadRes × Chain
  | .fileNotFound => (.ret false, bc)
  | .parseError => (.exc, bc)
  | .parsed bs =>
    match loadRun env Digest.zero64 [] [] bs with
    | some (_, bal, non) =>
      (.ret true, { bc with chain := bs, mempool := [], balances := bal, next_nonce := non })
    | none => (.ret false, bc)

/-- Source `Blockchain.save(path)` serializes `[b.to_dict() for b in self.chain]`
and nothing else; at the §6 interface boundary the persisted form *is* the
block list. -/
def save (bc : Chain) : List Block := bc.chain

/-- Source `Blockchain.create_and_add_genesis(allocations)`: one coinbase mint per
allocation entry, mined with the same nonce search and added through the
normal `add_block` path.  `none` models the `RuntimeError` raised when
`add_block` rejects (or a never-terminating nonce search). -/
def create_and_add_genesis (env : Env) (bc : Chain)
    (allocations : List (String × Int)) (ts : Int) (fuel : Nat) :
    Option Block × Chain :=
  let txs := allocations.map (fun p => coinbaseTx p.1 p.2 ts)
  let b0 : Block :=
    { height := 0, prev_hash := Digest.zero64, timestamp := ts, nonce := 0,
      difficulty := bc.difficulty,
      merkle_root := Merkle.root (txs.map Tx.txid), transactions := txs }
  match powSearch env b0 0 fuel with
  | none => (none, bc)
  | some n =>
    let b := { b0 with nonce := n }
    match add_block env bc b with
    | (true, bc') => (some b, bc')
    | (false, bc') => (none, bc')

/-! ## Map and replay lemmas -/

theorem mget_mset (m : StateMap) (k : String) (v : Int) (a : String) :
    mget (mset m k v) a = if k = a then v else mget m a := by
  induction m with
  | nil => simp [mset, mget]
  | cons p r ih =>
    obtain ⟨k', v'⟩ := p
    by_cases hk : k' = k
    · subst hk
      simp only [mset, if_pos rfl, mget]
      by_cases hka : k' = a <;> simp [hka]
    · simp only [mset, if_neg hk, mget]
      by_cases hka : k' = a
      · rw [if_pos hka, if_neg (fun h => hk (hka.trans h.symm)), if_pos hka]
      · rw [if_neg hka, ih, if_neg hka]

/-- Every value reachable through `mget` is non-negative. -/
def NonnegMap (m : StateMap) : Prop := ∀ a, 0 ≤ mget m a

theorem applyTx_nonneg {tx : Tx} {bal non : StateMap} (h : NonnegMap bal) :
    NonnegMap (applyTx tx bal non).2.1 := by
  unfold applyTx
  dsimp only
  split_ifs with h1 h2 h3 h4
  · exact h
  · intro a
    simp only [mget_mset]
    split
    · have := h tx.recipient
      omega
    · exact h a
  · exact h
  · exact h
  · intro a
    simp only [mget_mset]
    have hs := h tx.sender
    have hr := h tx.recipient
    have ha := h a
    split_ifs <;> omega

theorem applyFold_nonneg :
    ∀ (txs : List Tx) (bal non : StateMap), NonnegMap bal →
      NonnegMap (applyFold txs bal non).2.1
  | [], bal, non, h => h
  | t :: r, bal, non, h => by
    have ht : NonnegMap (applyTx t bal non).2.1 := applyTx_nonneg h
    unfold applyFold
    rcases happ : applyTx t bal non with ⟨ok, bal', non'⟩
    rw [happ] at ht
    cases ok
    · exact ht
    · exact applyFold_nonneg r bal' non' ht

theorem ivFold_nonneg (env : Env) :
    ∀ (txs : List Tx) (bal non : StateMap), NonnegMap bal →
      NonnegMap (ivFold env txs bal non).2.1
  | [], bal, non, h => h
  | t :: r, bal, non, h => by
    have ht : NonnegMap (applyTx t bal non).2.1 := applyTx_nonneg h
    unfold ivFold
    split
    · exact h
    · rcases happ : applyTx t bal non with ⟨ok, bal', non'⟩
      rw [happ] at ht
      cases ok
      · exact ht
      · exact ivFold_nonneg env r bal' non' ht

/-- When every transaction passes `verify_transaction`, the interleaved
verify-and-apply loop of `is_valid`/`load` agrees with the bare replay loop
of `verify_block`/`add_block`. -/
theorem ivFold_eq_applyFold (env : Env) :
    ∀ (txs : List Tx) (bal non : StateMap),
      (∀ t ∈ txs, verify_transaction env t = true) →
      ivFold env txs bal non = applyFold txs bal non
  | [], _, _, _ => rfl
  | t :: r, bal, non, h => by
    have ht : verify_transaction env t = true := h t (by simp)
    unfold ivFold applyFold
    rw [if_neg (by simp [ht])]
    rcases happ : applyTx t bal non with ⟨ok, bal', non'⟩
    cases ok
    · rfl
    · exact ivFold_eq_applyFold env r bal' non' (fun x hx => h x (by simp [hx]))

theorem verify_block_eq_true_iff (env : Env) (bc : Chain) (b : Block) :
    verify_block env bc b = true ↔
      b.height = bc.chain.length ∧
      b.prev_hash = tipHash bc.chain ∧
      Merkle.root (b.transactions.map Tx.txid) = b.merkle_root ∧
      env.powOk b.block_hash b.difficulty = true ∧
      coinbaseRule bc.reward b.height b.transactions = true ∧
      (∀ t ∈ b.transactions, verify_transaction env t = true) ∧
      (applyFold b.transactions bc.balances bc.next_nonce).1 = true := by
  simp [verify_block, Bool.and_eq_true, List.all_eq_true, and_assoc]

/-- The function `add_block` in closed form: on a verified block the live replay is the
same computation as the trial replay `verify_block` just ran from the same
snapshot, so it succeeds identically and the block is appended; otherwise
nothing changes. -/
theorem add_block_eq (env : Env) (bc : Chain) (b : Block) :
    add_block env bc b =
      if verify_block env bc b then
        (true, { bc with chain := bc.chain ++ [b], balances := (applyFold b.transactions bc.balances bc.next_nonce).2.1, next_nonce := (applyFold b.transactions bc.balances bc.next_nonce).2.2 })
      else (false, bc) := by
  unfold add_block
  by_cases hv : verify_block env bc b = true
  · have happ1 : (applyFold b.transactions bc.balances bc.next_nonce).1 = true :=
      ((verify_block_eq_true_iff env bc b).mp hv).2.2.2.2.2.2
    rw [if_pos hv, if_neg (by simp [hv])]
    rcases happ : applyFold b.transactions bc.balances bc.next_nonce with ⟨ok, bal', non'⟩
    rw [happ] at happ1
    subst happ1
    simp [happ]
  · rw [if_neg hv, if_pos (by simp [hv])]

/-! ## Claim C5: `_apply_tx` -/

/-- The claim's description of `_apply_tx` (§4.4), written from the spec's
words: reject non-positive amounts with no effect; unconditionally credit
the recipient for coinbase; for ordinary transactions reject when the nonce
differs from the sender's expected nonce or the balance is below the
amount, otherwise debit the sender, credit the recipient and increment the
sender's nonce by exactly 1. -/
def applyTxSpec (tx : Tx) (bal non : StateMap) : Bool × StateMap × StateMap :=
  if tx.amount ≤ 0 then (false, bal, non)
  else if tx.sender = COINBASE then
    (true, mset bal tx.recipient (mget bal tx.recipient + tx.amount), non)
  else if tx.nonce ≠ mget non tx.sender ∨ mget bal tx.sender < tx.amount then
    (false, bal, non)
  else
    let debited := mset bal tx.sender (mget bal tx.sender - tx.amount)
    (true, mset debited tx.recipient (mget debited tx.recipient + tx.amount),
      mset non tx.sender (mget non tx.sender + 1))

/-- C5: `_apply_tx` behaves exactly as the claim describes, case by case:
the code's sequential guards coincide with the spec's clauses, and every
`false` outcome leaves both maps unchanged. -/
theorem apply_tx_spec_correct (tx : Tx) (bal non : StateMap) :
    applyTx tx bal non = applyTxSpec tx bal non := by
  unfold applyTx applyTxSpec
  dsimp only
  split_ifs with h1 h2 h3 h4 h5 <;> first | rfl | tauto

/-! ## Replay-run infrastructure -/

theorem tipHash_append (c : List Block) (b : Block) :
    tipHash (c ++ [b]) = b.block_hash := by
  simp [tipHash]

theorem loadRun_append (env : Env) :
    ∀ (l1 l2 : List Block) (prev : Digest) (bal non : StateMap),
      loadRun env prev bal non (l1 ++ l2) =
        match loadRun env prev bal non l1 with
        | some (p, b, n) => loadRun env p b n l2
        | none => none
  | [], l2, prev, bal, non => rfl
  | b :: r, l2, prev, bal, non => by
    rw [List.cons_append]
    simp only [loadRun]
    rcases hs : loadStep env prev bal non b with _ | ⟨p', b', n'⟩
    · rfl
    · dsimp only
      exact loadRun_append env r l2 p' b' n'

theorem validRun_append (env : Env) (reward : Int) :
    ∀ (l1 l2 : List Block) (pos : Nat) (prev : Digest) (bal non : StateMap),
      validRun env reward pos prev bal non (l1 ++ l2) =
        match validRun env reward pos prev bal non l1 with
        | some (p, b, n) => validRun env reward (pos + l1.length) p b n l2
        | none => none
  | [], l2, pos, prev, bal, non => by simp [validRun]
  | b :: r, l2, pos, prev, bal, non => by
    rw [List.cons_append]
    simp only [validRun]
    rcases hs : validStep env reward pos prev bal non b with _ | ⟨p', b', n'⟩
    · rfl
    · dsimp only
      rw [validRun_append env reward r l2 (pos + 1) p' b' n']
      have h3 : pos + 1 + r.length = pos + (r.length + 1) := by omega
      simp only [List.length_cons, h3]

theorem loadRun_prev (env : Env) :
    ∀ (l : List Block) (prev : Digest) (bal non : StateMap)
      (out : Digest × StateMap × StateMap),
      loadRun env prev bal non l = some out →
      out.1 = (match l.getLast? with
        | none => prev
        | some blk => blk.block_hash)
  | [], prev, bal, non, out, h => by
    simp only [loadRun] at h
    cases h
    rfl
  | b :: r, prev, bal, non, out, h => by
    unfold loadRun at h
    rcases hs : loadStep env prev bal non b with _ | ⟨p', b', n'⟩ <;> rw [hs] at h
    · exact absurd h (by simp)
    · have hp : p' = b.block_hash := by
        unfold loadStep at hs
        split_ifs at hs
        rcases hiv : ivFold env b.transactions bal non with ⟨ok, bal2, non2⟩
        rw [hiv] at hs
        cases ok
        · simp at hs
        · simp only [Option.some.injEq] at hs
          exact (congrArg Prod.fst hs).symm
      have := loadRun_prev env r p' b' n' out h
      cases r with
      | nil =>
        simpa [hp] using this
      | cons c s =>
        simpa using this

theorem loadStep_eq_some (env : Env) (prev : Digest) (bal non : StateMap)
    (b : Block) (bal' non' : StateMap)
    (h1 : b.prev_hash = prev)
    (h2 : env.powOk b.block_hash b.difficulty = true)
    (h3 : Merkle.root (b.transactions.map Tx.txid) = b.merkle_root)
    (h5 : ivFold env b.transactions bal non = (true, bal', non')) :
    loadStep env prev bal non b = some (b.block_hash, bal', non') := by
  unfold loadStep
  rw [if_neg (by simp [h1]), if_neg (by simp [h2]), if_neg (by simp [h3]), h5]

theorem validStep_eq_some (env : Env) (reward : Int) (pos : Nat)
    (prev : Digest) (bal non : StateMap) (b : Block) (bal' non' : StateMap)
    (h1 : b.prev_hash = prev)
    (h2 : env.powOk b.block_hash b.difficulty = true)
    (h3 : Merkle.root (b.transactions.map Tx.txid) = b.merkle_root)
    (h4 : coinbaseRule reward pos b.transactions = true)
    (h5 : ivFold env b.transactions bal non = (true, bal', non')) :
    validStep env reward pos prev bal non b = some (b.block_hash, bal', non') := by
  unfold validStep
  rw [if_neg (by simp [h1]), if_neg (by simp [h2]), if_neg (by simp [h3]),
    if_neg (by simp [h4]), h5]

/-! ## Reachable states and the replay invariant -/

/-- States reachable from a freshly constructed `Blockchain` through any
sequence of its public mutating operations (successful or not). -/
inductive Reach (env : Env) : Chain → Prop where
  | init (d : Nat) (r : Int) : Reach env (Chain.init d r)
  | mempoolOp {bc : Chain} (tx : Tx) :
      Reach env bc → Reach env (add_to_mempool env bc tx).2
  | mineOp {bc : Chain} (m : String) (ts : Int) (mt f : Nat) :
      Reach env bc → Reach env (mine_pending env bc m ts mt f).2
  | addOp {bc : Chain} (b : Block) :
      Reach env bc → Reach env (add_block env bc b).2
  | genOp {bc : Chain} (al : List (String × Int)) (ts : Int) (f : Nat) :
      Reach env bc → Reach env (create_and_add_genesis env bc al ts f).2
  | loadOp {bc : Chain} (inp : LoadInput) :
      Reach env bc → Reach env (load env bc inp).2

/-- The cached ledger maps are exactly what `load`'s replay of the current
chain from an empty baseline derives (spec §3: "Ledger State is a derived,
cached materialization of replaying the chain"). -/
def LInvP (env : Env) (bc : Chain) : Prop :=
  loadRun env Digest.zero64 [] [] bc.chain =
    some (tipHash bc.chain, bc.balances, bc.next_nonce)

theorem LInvP_of_eq {env : Env} {bc bc' : Chain} (h : LInvP env bc)
    (h1 : bc'.chain = bc.chain) (h2 : bc'.balances = bc.balances)
    (h3 : bc'.next_nonce = bc.next_nonce) : LInvP env bc' := by
  unfold LInvP
  rw [h1, h2, h3]
  exact h

theorem add_block_LInv (env : Env) (bc : Chain) (b : Block)
    (hL : LInvP env bc) : LInvP env (add_block env bc b).2 := by
  rw [add_block_eq]
  by_cases hv : verify_block env bc b = true
  · obtain ⟨hheight, hprev, hmerkle, hpow, hcb, hall, happ1⟩ :=
      (verify_block_eq_true_iff env bc b).mp hv
    rw [if_pos hv]
    rcases happ : applyFold b.transactions bc.balances bc.next_nonce
      with ⟨ok, bal', non'⟩
    rw [happ] at happ1
    subst happ1
    unfold LInvP
    dsimp only
    rw [loadRun_append env bc.chain [b] Digest.zero64 [] [], hL]
    dsimp only
    have hstep : loadStep env (tipHash bc.chain) bc.balances bc.next_nonce b =
        some (b.block_hash, bal', non') := by
      apply loadStep_eq_some env _ _ _ _ _ _ hprev hpow hmerkle
      rw [ivFold_eq_applyFold env b.transactions bc.balances bc.next_nonce hall,
        happ]
    simp only [loadRun, hstep]
    rw [tipHash_append]
  · rw [if_neg hv]
    exact hL

theorem add_to_mempool_proj (env : Env) (bc : Chain) (tx : Tx) :
    ((add_to_mempool env bc tx).2).chain = bc.chain ∧
    ((add_to_mempool env bc tx).2).balances = bc.balances ∧
    ((add_to_mempool env bc tx).2).next_nonce = bc.next_nonce := by
  unfold add_to_mempool
  split_ifs <;> try exact ⟨rfl, rfl, rfl⟩
  rcases hf : applyFold bc.mempool bc.balances bc.next_nonce with ⟨ok, b1, n1⟩
  cases ok
  · exact ⟨rfl, rfl, rfl⟩
  · dsimp only
    rcases ht : applyTx tx b1 n1 with ⟨ok2, b2, n2⟩
    cases ok2 <;> exact ⟨rfl, rfl, rfl⟩

theorem add_to_mempool_LInv (env : Env) (bc : Chain) (tx : Tx)
    (hL : LInvP env bc) : LInvP env (add_to_mempool env bc tx).2 := by
  obtain ⟨h1, h2, h3⟩ := add_to_mempool_proj env bc tx
  exact LInvP_of_eq hL h1 h2 h3

theorem mine_pending_LInv (env : Env) (bc : Chain) (m : String) (ts : Int)
    (mt f : Nat) (hL : LInvP env bc) :
    LInvP env (mine_pending env bc m ts mt f).2 := by
  unfold mine_pending
  dsimp only
  rcases hps : powSearch env (make_block bc (bc.mempool.take mt) m ts) 0 f
    with _ | n
  · exact hL
  · dsimp only
    have hadd := add_block_LInv env bc
      { make_block bc (bc.mempool.take mt) m ts with nonce := n } hL
    rcases hab : add_block env bc
        { make_block bc (bc.mempool.take mt) m ts with nonce := n }
      with ⟨ok, bc''⟩
    rw [hab] at hadd
    dsimp only at hadd
    cases ok
    · exact hadd
    · dsimp only
      exact LInvP_of_eq hadd rfl rfl rfl

theorem genesis_LInv (env : Env) (bc : Chain) (al : List (String × Int))
    (ts : Int) (f : Nat) (hL : LInvP env bc) :
    LInvP env (create_and_add_genesis env bc al ts f).2 := by
  unfold create_and_add_genesis
  dsimp only
  set b0 : Block :=
    { height := 0, prev_hash := Digest.zero64, timestamp := ts, nonce := 0,
      difficulty := bc.difficulty,
      merkle_root := Merkle.root ((al.map (fun p => coinbaseTx p.1 p.2 ts)).map Tx.txid),
      transactions := al.map (fun p => coinbaseTx p.1 p.2 ts) } with hb0
  rcases hps : powSearch env b0 0 f with _ | n
  · exact hL
  · dsimp only
    have hadd := add_block_LInv env bc { b0 with nonce := n } hL
    rcases hab : add_block env bc { b0 with nonce := n } with ⟨ok, bc''⟩
    rw [hab] at hadd
    dsimp only at hadd
    cases ok <;> exact hadd

theorem load_LInv (env : Env) (bc : Chain) (inp : LoadInput)
    (hL : LInvP env bc) : LInvP env (load env bc inp).2 := by
  cases inp with
  | fileNotFound => exact hL
  | parseError => exact hL
  | parsed bs =>
    unfold load
    dsimp only
    rcases hlr : loadRun env Digest.zero64 [] [] bs with _ | ⟨p, bal, non⟩
    · exact hL
    · dsimp only
      unfold LInvP
      dsimp only
      rw [hlr]
      have hp := loadRun_prev env bs Digest.zero64 [] [] (p, bal, non) hlr
      have : tipHash bs = p := by
        rw [tipHash]
        exact hp.symm
      rw [this]

/-- Every reachable `Blockchain` state satisfies the replay invariant. -/
theorem Reach_LInv {env : Env} {bc : Chain} (h : Reach env bc) :
    LInvP env bc := by
  induction h with
  | init d r => rfl
  | mempoolOp tx _ ih => exact add_to_mempool_LInv env _ tx ih
  | mineOp m ts mt f _ ih => exact mine_pending_LInv env _ m ts mt f ih
  | addOp b _ ih => exact add_block_LInv env _ b ih
  | genOp al ts f _ ih => exact genesis_LInv env _ al ts f ih
  | loadOp inp _ ih => exact load_LInv env _ inp ih

/-! ## Claims C6, C7, C8, C9 -/

theorem loadRun_nonneg (env : Env) :
    ∀ (l : List Block) (prev : Digest) (bal non : StateMap)
      (out : Digest × StateMap × StateMap), NonnegMap bal →
      loadRun env prev bal non l = some out → NonnegMap out.2.1
  | [], prev, bal, non, out, h0, h => by
    simp only [loadRun] at h
    cases h
    exact h0
  | b :: r, prev, bal, non, out, h0, h => by
    simp only [loadRun] at h
    rcases hs : loadStep env prev bal non b with _ | ⟨p', b', n'⟩ <;> rw [hs] at h
    · exact absurd h (by simp)
    · have hb' : NonnegMap b' := by
        unfold loadStep at hs
        split_ifs at hs
        have hiv := ivFold_nonneg env b.transactions bal non h0
        rcases hivf : ivFold env b.transactions bal non with ⟨ok, bal2, non2⟩
        rw [hivf] at hs hiv
        cases ok
        · simp at hs
        · simp only [Option.some.injEq] at hs
          have := (congrArg (fun q => q.2.1) hs)
          dsimp only at this
          rw [← this]
          exact hiv
      exact loadRun_nonneg env r p' b' n' out hb' h

/-- C6: starting from the empty initial state, after every sequence of
`Blockchain` operations, every balance is non-negative. -/
theorem balances_nonneg (env : Env) (bc : Chain) (h : Reach env bc)
    (addr : String) : 0 ≤ mget bc.balances addr := by
  have hL := Reach_LInv h
  have h0 : NonnegMap ([] : StateMap) := by
    intro a
    simp [mget]
  exact loadRun_nonneg env bc.chain Digest.zero64 [] [] _ h0 hL addr

/-- A concrete environment for witnesses: difficulty-0 proof-of-work (the
`startswith("0" * 0)` predicate is constantly true) and a signature backend
that accepts the crafted test material. -/
def envAll : Env := ⟨fun _ _ => true, fun _ => true⟩

/-- A concrete post-genesis state: 200 to `A`, 150 to `B`, difficulty 0,
reward 25. -/
def WG : Chain :=
  (create_and_add_genesis envAll (Chain.init 0 25) [("A", 200), ("B", 150)] 0 0).2

/-- Witness for C6 at a concrete reachable state. -/
theorem balances_nonneg_witness : 0 ≤ mget WG.balances "A" :=
  balances_nonneg envAll WG
    (Reach.genOp [("A", 200), ("B", 150)] 0 0 (Reach.init 0 25)) "A"

/-- C8: `add_block` in closed form — on a verified block the live replay
(the same `applyFold` from the same live snapshot the trial replay in
`verify_block` used) succeeds identically and the block is appended with
the replayed maps committed; on a rejected block it returns false and
leaves chain, balances and next_nonce untouched. -/
theorem add_block_verify_agreement (env : Env) (bc : Chain) (b : Block) :
    add_block env bc b =
      if verify_block env bc b then
        (true, { bc with chain := bc.chain ++ [b], balances := (applyFold b.transactions bc.balances bc.next_nonce).2.1, next_nonce := (applyFold b.transactions bc.balances bc.next_nonce).2.2 })
      else (false, bc) :=
  add_block_eq env bc b

/-- C7: `verify_block` accepts only blocks satisfying the coinbase
placement rules: at height 0 every transaction is coinbase; at height > 0
the list is non-empty with a first coinbase paying exactly the configured
reward and no further coinbase. -/
theorem verify_block_coinbase_rules (env : Env) (bc : Chain) (b : Block)
    (h : verify_block env bc b = true) :
    (b.height = 0 → ∀ tx ∈ b.transactions, tx.sender = COINBASE) ∧
    (0 < b.height →
      ∃ t0 rest, b.transactions = t0 :: rest ∧ t0.sender = COINBASE ∧
        t0.amount = bc.reward ∧ ∀ tx ∈ rest, tx.sender ≠ COINBASE) := by
  obtain ⟨-, -, -, -, hcb, -, -⟩ := (verify_block_eq_true_iff env bc b).mp h
  unfold coinbaseRule at hcb
  constructor
  · intro h0
    rw [if_pos h0] at hcb
    intro tx htx
    simp only [List.all_eq_true, decide_eq_true_eq] at hcb
    exact hcb tx htx
  · intro hpos
    rw [if_neg (by omega)] at hcb
    cases htx : b.transactions with
    | nil =>
      rw [htx] at hcb
      simp at hcb
    | cons t0 rest =>
      rw [htx] at hcb
      simp only [Bool.and_eq_true, decide_eq_true_eq, List.all_eq_true] at hcb
      obtain ⟨⟨hs, ha⟩, hrest⟩ := hcb
      refine ⟨t0, rest, rfl, hs, ha, fun tx htx2 => ?_⟩
      simpa using hrest tx htx2

/-- A height-1 block that `verify_block` accepts on top of `WG`. -/
def MB : Block :=
  ⟨1, tipHash WG.chain, 1, 0, 0,
    Merkle.root [Tx.txid (coinbaseTx "M" 25 1)], [coinbaseTx "M" 25 1]⟩

/-- Witness for C7 at a concrete verified block. -/
theorem verify_block_coinbase_rules_witness :
    (MB.height = 0 → ∀ tx ∈ MB.transactions, tx.sender = COINBASE) ∧
    (0 < MB.height →
      ∃ t0 rest, MB.transactions = t0 :: rest ∧ t0.sender = COINBASE ∧
        t0.amount = WG.reward ∧ ∀ tx ∈ rest, tx.sender ≠ COINBASE) :=
  verify_block_coinbase_rules envAll WG MB (by decide)

/-- C9: for a reachable `Blockchain` whose chain is valid, `save` followed
by `load` returns true and reproduces balances and next_nonce identical to
the pre-save in-memory state. -/
theorem save_load_roundtrip (env : Env) (bc : Chain) (h1 : Reach env bc)
    (_h2 : is_valid env bc = true) :
    ∃ bc', load env bc (.parsed (save bc)) = (.ret true, bc') ∧
      bc'.balances = bc.balances ∧ bc'.next_nonce = bc.next_nonce := by
  have hL := Reach_LInv h1
  refine ⟨⟨bc.difficulty, bc.reward, bc.chain, [], bc.balances, bc.next_nonce⟩,
    ?_, rfl, rfl⟩
  unfold load save
  dsimp only
  rw [hL]

/-- Witness for C9 at the concrete post-genesis state. -/
theorem save_load_roundtrip_witness :
    ∃ bc', load envAll WG (.parsed (save WG)) = (.ret true, bc') ∧
      bc'.balances = WG.balances ∧ bc'.next_nonce = WG.next_nonce :=
  save_load_roundtrip envAll WG
    (Reach.genOp [("A", 200), ("B", 150)] 0 0 (Reach.init 0 25)) (by decide)

/-! ## Claim C2: validity after successful operations, and tamper detection -/

/-- States built by a successful genesis and any sequence of successful
`add_block` / `mine_pending` calls. -/
inductive ReachV (env : Env) : Chain → Prop where
  | init (d : Nat) (r : Int) : ReachV env (Chain.init d r)
  | genesis {bc : Chain} (al : List (String × Int)) (ts : Int) (f : Nat) :
      ReachV env bc → (create_and_add_genesis env bc al ts f).1.isSome = true →
      ReachV env (create_and_add_genesis env bc al ts f).2
  | addB {bc : Chain} (b : Block) :
      ReachV env bc → (add_block env bc b).1 = true →
      ReachV env (add_block env bc b).2
  | mine {bc : Chain} (m : String) (ts : Int) (mt f : Nat) :
      ReachV env bc → (mine_pending env bc m ts mt f).1.isSome = true →
      ReachV env (mine_pending env bc m ts mt f).2

/-- The cached ledger maps are exactly what the `is_valid` replay of the
current chain from an empty baseline derives. -/
def VInvP (env : Env) (bc : Chain) : Prop :=
  validRun env bc.reward 0 Digest.zero64 [] [] bc.chain =
    some (tipHash bc.chain, bc.balances, bc.next_nonce)

theorem VInvP_of_eq {env : Env} {bc bc' : Chain} (h : VInvP env bc)
    (h0 : bc'.reward = bc.reward) (h1 : bc'.chain = bc.chain)
    (h2 : bc'.balances = bc.balances) (h3 : bc'.next_nonce = bc.next_nonce) :
    VInvP env bc' := by
  unfold VInvP
  rw [h0, h1, h2, h3]
  exact h


theorem add_block_VInv (env : Env) (bc : Chain) (b : Block)
    (hV : VInvP env bc) : VInvP env (add_block env bc b).2 := by
  rw [add_block_eq]
  by_cases hv : verify_block env bc b = true
  · obtain ⟨hheight, hprev, hmerkle, hpow, hcb, hall, happ1⟩ :=
      (verify_block_eq_true_iff env bc b).mp hv
    rw [if_pos hv]
    rcases happ : applyFold b.transactions bc.balances bc.next_nonce
      with ⟨ok, bal', non'⟩
    rw [happ] at happ1
    subst happ1
    unfold VInvP
    dsimp only
    rw [validRun_append env bc.reward bc.chain [b] 0 Digest.zero64 [] [], hV]
    dsimp only
    have hstep : validStep env bc.reward (0 + bc.chain.length)
        (tipHash bc.chain) bc.balances bc.next_nonce b =
        some (b.block_hash, bal', non') := by
      apply validStep_eq_some env bc.reward _ _ _ _ b _ _ hprev hpow hmerkle
      · rw [Nat.zero_add, ← hheight]
        exact hcb
      · rw [ivFold_eq_applyFold env b.transactions bc.balances bc.next_nonce hall,
          happ]
    simp only [validRun, hstep]
    rw [tipHash_append]
  · rw [if_neg hv]
    exact hV

theorem mine_pending_VInv (env : Env) (bc : Chain) (m : String) (ts : Int)
    (mt f : Nat) (hV : VInvP env bc) :
    VInvP env (mine_pending env bc m ts mt f).2 := by
  unfold mine_pending
  dsimp only
  rcases hps : powSearch env (make_block bc (bc.mempool.take mt) m ts) 0 f
    with _ | n
  · exact hV
  · dsimp only
    have hadd := add_block_VInv env bc
      { make_block bc (bc.mempool.take mt) m ts with nonce := n } hV
    rcases hab : add_block env bc
        { make_block bc (bc.mempool.take mt) m ts with nonce := n }
      with ⟨ok, bc''⟩
    rw [hab] at hadd
    dsimp only at hadd
    cases ok
    · exact hadd
    · dsimp only
      exact VInvP_of_eq hadd rfl rfl rfl rfl

theorem genesis_VInv (env : Env) (bc : Chain) (al : List (String × Int))
    (ts : Int) (f : Nat) (hV : VInvP env bc) :
    VInvP env (create_and_add_genesis env bc al ts f).2 := by
  unfold create_and_add_genesis
  dsimp only
  set b0 : Block :=
    { height := 0, prev_hash := Digest.zero64, timestamp := ts, nonce := 0,
      difficulty := bc.difficulty,
      merkle_root := Merkle.root ((al.map (fun p => coinbaseTx p.1 p.2 ts)).map Tx.txid),
      transactions := al.map (fun p => coinbaseTx p.1 p.2 ts) } with hb0
  rcases hps : powSearch env b0 0 f with _ | n
  · exact hV
  · dsimp only
    have hadd := add_block_VInv env bc { b0 with nonce := n } hV
    rcases hab : add_block env bc { b0 with nonce := n } with ⟨ok, bc''⟩
    rw [hab] at hadd
    dsimp only at hadd
    cases ok <;> exact hadd

/-- Every state built by a genesis and successful `add_block`/`mine_pending`
calls satisfies the `is_valid` replay invariant. -/
theorem ReachV_VInv {env : Env} {bc : Chain} (h : ReachV env bc) :
    VInvP env bc := by
  induction h with
  | init d r => rfl
  | genesis al ts f _ _ ih => exact genesis_VInv env _ al ts f ih
  | addB b _ hok ih => exact add_block_VInv env _ b ih
  | mine m ts mt f _ _ ih => exact mine_pending_VInv env _ m ts mt f ih

/-- The digest `Transaction.txid` is injective (canonical JSON of all fields, hashed
with idealized SHA-256): distinct transactions have distinct txids. -/
theorem txid_inj {t1 t2 : Tx} (h : t1.txid = t2.txid) : t1 = t2 := by
  cases t1
  cases t2
  simp only [Tx.txid, Digest.txH.injEq] at h
  simp only [Tx.mk.injEq]
  exact h

/-- A block whose recomputed merkle root mismatches the stored one fails
the `is_valid` per-block checks outright. -/
theorem validStep_none_of_merkle (env : Env) (reward : Int) (pos : Nat)
    (prev : Digest) (bal non : StateMap) (b : Block)
    (hm : Merkle.root (b.transactions.map Tx.txid) ≠ b.merkle_root) :
    validStep env reward pos prev bal non b = none := by
  unfold validStep
  rw [if_pos hm]
  split_ifs <;> rfl

theorem validStep_some_facts {env : Env} {reward : Int} {pos : Nat}
    {prev : Digest} {bal non : StateMap} {b : Block}
    {out : Digest × StateMap × StateMap}
    (h : validStep env reward pos prev bal non b = some out) :
    b.prev_hash = prev ∧ env.powOk b.block_hash b.difficulty = true ∧
      Merkle.root (b.transactions.map Tx.txid) = b.merkle_root := by
  have h1 : b.prev_hash = prev := by
    by_contra hc
    unfold validStep at h
    rw [if_pos hc] at h
    exact absurd h (by simp)
  have h2 : env.powOk b.block_hash b.difficulty = true := by
    by_contra hc
    unfold validStep at h
    rw [if_neg (by simp [h1]), if_pos hc] at h
    exact absurd h (by simp)
  have h3 : Merkle.root (b.transactions.map Tx.txid) = b.merkle_root := by
    by_contra hc
    unfold validStep at h
    rw [if_neg (by simp [h1]), if_neg (by simp [h2]), if_pos hc] at h
    exact absurd h (by simp)
  exact ⟨h1, h2, h3⟩

/-- C2: after a genesis and any sequence of successful
`add_block`/`mine_pending` calls, `is_valid()` returns true; and replacing
any single transaction of any block by a different one (the block's stored
header, in particular its merkle root, unchanged — "altering a byte after
the fact") makes `is_valid()` return false. -/
theorem chain_valid_and_tamper_detected (env : Env) (bc : Chain)
    (h : ReachV env bc) :
    is_valid env bc = true ∧
    ∀ (i j : Nat) (blk : Block) (tj tx' : Tx),
      bc.chain[i]? = some blk → blk.transactions[j]? = some tj → tx' ≠ tj →
      is_valid env { bc with chain := bc.chain.set i { blk with transactions := blk.transactions.set j tx' } } = false := by
  have hV := ReachV_VInv h
  constructor
  · unfold is_valid
    rw [hV]
    rfl
  · intro i j blk tj tx' hi hj hne
    obtain ⟨hilen, hblki⟩ := List.getElem?_eq_some_iff.mp hi
    obtain ⟨hjlen, htj⟩ := List.getElem?_eq_some_iff.mp hj
    have hdecomp : bc.chain = bc.chain.take i ++ blk :: bc.chain.drop (i + 1) := by
      conv_lhs => rw [← List.take_append_drop i bc.chain]
      rw [List.drop_eq_getElem_cons hilen, hblki]
    have hset : bc.chain.set i { blk with transactions := blk.transactions.set j tx' } =
        bc.chain.take i ++ { blk with transactions := blk.transactions.set j tx' } :: bc.chain.drop (i + 1) :=
      List.set_eq_take_cons_drop _ hilen
    have hrunsplit := validRun_append env bc.reward (bc.chain.take i)
      (blk :: bc.chain.drop (i + 1)) 0 Digest.zero64 [] []
    rw [← hdecomp, hV] at hrunsplit
    have hlen_take : (bc.chain.take i).length = i := by
      rw [List.length_take]
      omega
    rcases hpre : validRun env bc.reward 0 Digest.zero64 [] [] (bc.chain.take i)
      with _ | ⟨p0, b0, n0⟩ <;> rw [hpre] at hrunsplit
    · simp at hrunsplit
    · dsimp only at hrunsplit
      rw [hlen_take, Nat.zero_add] at hrunsplit
      simp only [validRun] at hrunsplit
      rcases hstep : validStep env bc.reward i p0 b0 n0 blk with _ | ⟨p1, b1, n1⟩ <;>
        rw [hstep] at hrunsplit
      · simp at hrunsplit
      · obtain ⟨hprev1, hpow1, hmerkle1⟩ := validStep_some_facts hstep
        unfold is_valid
        dsimp only
        rw [hset, validRun_append env bc.reward (bc.chain.take i) _ 0 Digest.zero64 [] [],
          hpre]
        dsimp only
        rw [hlen_take, Nat.zero_add]
        simp only [validRun]
        have hstep' : validStep env bc.reward i p0 b0 n0
            { blk with transactions := blk.transactions.set j tx' } = none := by
          apply validStep_none_of_merkle
          show Merkle.root ((blk.transactions.set j tx').map Tx.txid) ≠ blk.merkle_root
          rw [← hmerkle1]
          apply Merkle.root_ne_of_ne
          · simp
          · intro heq
            have h1 : ((blk.transactions.set j tx').map Tx.txid)[j]? =
                some tx'.txid := by
              rw [List.getElem?_map, List.getElem?_set_self (by simpa using hjlen)]
              rfl
            have h2 : ((blk.transactions).map Tx.txid)[j]? = some tj.txid := by
              rw [List.getElem?_map, List.getElem?_eq_some_iff.mpr ⟨hjlen, htj⟩]
              rfl
            rw [heq, h2] at h1
            exact hne (txid_inj (Option.some.inj h1.symm))
          · intro hnil
            have : (blk.transactions.set j tx').length = 0 := by
              rw [← List.length_map (blk.transactions.set j tx') Tx.txid, hnil]
              rfl
            rw [List.length_set] at this
            omega
        rw [hstep']
        rfl

/-- The genesis block created inside `WG`. -/
def GB : Block :=
  ⟨0, Digest.zero64, 0, 0, 0,
    Merkle.root [Tx.txid (coinbaseTx "A" 200 0), Tx.txid (coinbaseTx "B" 150 0)],
    [coinbaseTx "A" 200 0, coinbaseTx "B" 150 0]⟩

/-- Witness for C2: the concrete post-genesis chain validates, and bumping
the first mint from 200 to 201 inside the stored block breaks validation. -/
theorem chain_valid_and_tamper_detected_witness :
    is_valid envAll WG = true ∧
    is_valid envAll { WG with chain := WG.chain.set 0 { GB with transactions := GB.transactions.set 0 (coinbaseTx "A" 201 0) } } = false := by
  have h := chain_valid_and_tamper_detected envAll WG
    (ReachV.genesis [("A", 200), ("B", 150)] 0 0 (ReachV.init 0 25) (by decide))
  exact ⟨h.1, h.2 0 0 GB (coinbaseTx "A" 200 0) (coinbaseTx "A" 201 0)
    (by decide) (by decide) (by decide)⟩

/-! ## Claim C10: `mine_pending` on an empty mempool -/

theorem powSearch_some (env : Env) (b : Block) :
    ∀ (s fuel n : Nat), powSearch env b s fuel = some n →
      env.powOk (Block.block_hash { b with nonce := n }) b.difficulty = true
  | s, 0, n, h => by
    unfold powSearch at h
    split_ifs at h with hc
    injection h with hn
    subst hn
    exact hc
  | s, f + 1, n, h => by
    unfold powSearch at h
    split_ifs at h with hc
    · injection h with hn
      subst hn
      exact hc
    · exact powSearch_some env b (s + 1) f n h

/-- A reachable blockchain with configured reward 0 and a (coinbase-free)
genesis block: `create_and_add_genesis` with an empty allocation table
produces a valid empty height-0 block. -/
def RZ : Chain := (create_and_add_genesis envAll (Chain.init 0 0) [] 0 0).2

/-- Counterexample to C10 as stated: `RZ` has a non-empty chain and an empty
mempool, yet `mine_pending` fails (returns no block and appends nothing),
because its own coinbase carries `amount = reward = 0`, which
`verify_transaction` rejects.  The claim holds only for positive rewards. -/
theorem mine_empty_mempool_counterexample :
    RZ.chain ≠ [] ∧ RZ.mempool = [] ∧
    (mine_pending envAll RZ "M" 1 100 5).1 = none ∧
    (mine_pending envAll RZ "M" 1 100 5).2 = RZ := by decide


/-- The block `mine_pending` builds over an empty mempool at height ≥ 1: a
single block-reward coinbase, committed via the merkle root. -/
def soloCoinbaseBlock (bc : Chain) (m : String) (ts : Int) (n : Nat) : Block :=
  { height := bc.chain.length, prev_hash := tipHash bc.chain, timestamp := ts,
    nonce := n, difficulty := bc.difficulty,
    merkle_root := Merkle.root [Tx.txid (coinbaseTx m bc.reward ts)],
    transactions := [coinbaseTx m bc.reward ts] }

/-- C10 as amended: with a positive configured reward and a terminating
proof-of-work search, `mine_pending` on a non-empty chain with an empty
mempool mines and appends a block consisting of exactly one coinbase
transaction paying the reward to the miner, and returns that block. -/
theorem mine_empty_mempool_amended (env : Env) (bc : Chain) (m : String)
    (ts : Int) (mt fuel n : Nat)
    (hne : bc.chain ≠ []) (hmp : bc.mempool = []) (hr : 0 < bc.reward)
    (hpow : powSearch env (make_block bc (bc.mempool.take mt) m ts) 0 fuel = some n) :
    ∃ b, (mine_pending env bc m ts mt fuel).1 = some b ∧
      b.transactions = [coinbaseTx m bc.reward ts] ∧
      (mine_pending env bc m ts mt fuel).2.chain = bc.chain ++ [b] := by
  have hlen : 0 < bc.chain.length := List.length_pos.mpr hne
  have hmb : make_block bc [] m ts = soloCoinbaseBlock bc m ts 0 := by
    unfold make_block soloCoinbaseBlock
    dsimp only
    rw [if_pos hlen]
    rfl
  rw [hmp, List.take_nil, hmb] at hpow
  have hupd : { soloCoinbaseBlock bc m ts 0 with nonce := n } =
      soloCoinbaseBlock bc m ts n := rfl
  have hvtx : verify_transaction env (coinbaseTx m bc.reward ts) = true := by
    unfold verify_transaction coinbaseTx
    dsimp only
    rw [if_neg (by omega), if_pos rfl]
  have happly : applyFold [coinbaseTx m bc.reward ts] bc.balances bc.next_nonce =
      (true, mset bc.balances m (mget bc.balances m + bc.reward), bc.next_nonce) := by
    unfold applyFold applyTx coinbaseTx
    dsimp only
    rw [if_neg (by omega), if_pos rfl]
    rfl
  have hverify : verify_block env bc (soloCoinbaseBlock bc m ts n) = true := by
    apply (verify_block_eq_true_iff env bc _).mpr
    refine ⟨rfl, rfl, rfl, ?_, ?_, ?_, ?_⟩
    · exact powSearch_some env _ 0 fuel n hpow
    · show coinbaseRule bc.reward bc.chain.length [coinbaseTx m bc.reward ts] = true
      unfold coinbaseRule
      rw [if_neg (by omega)]
      simp [coinbaseTx, COINBASE]
    · intro t ht
      simp only [soloCoinbaseBlock, List.mem_singleton] at ht
      subst ht
      exact hvtx
    · show (applyFold [coinbaseTx m bc.reward ts] bc.balances bc.next_nonce).1 = true
      rw [happly]
  have haddeq := add_block_eq env bc (soloCoinbaseBlock bc m ts n)
  rw [if_pos hverify] at haddeq
  have hmine : mine_pending env bc m ts mt fuel =
      (some (soloCoinbaseBlock bc m ts n), { bc with chain := bc.chain ++ [soloCoinbaseBlock bc m ts n], balances := mset bc.balances m (mget bc.balances m + bc.reward), mempool := [] }) := by
    unfold mine_pending
    rw [hmp]
    simp only [List.take_nil]
    rw [hmb, hpow]
    dsimp only
    rw [hupd, haddeq]
    dsimp only
    rw [show (soloCoinbaseBlock bc m ts n).transactions = [coinbaseTx m bc.reward ts] from rfl]
    rw [happly]
    dsimp only
    rw [hmp]
    simp only [List.filter_nil]
  refine ⟨soloCoinbaseBlock bc m ts n, ?_, rfl, ?_⟩
  · rw [hmine]
  · rw [hmine]

/-- Witness for the amended C10 at the concrete post-genesis state `WG`. -/
theorem mine_empty_mempool_amended_witness :
    ∃ b, (mine_pending envAll WG "M" 1 100 0).1 = some b ∧
      b.transactions = [coinbaseTx "M" 25 1] ∧
      (mine_pending envAll WG "M" 1 100 0).2.chain = WG.chain ++ [b] :=
  mine_empty_mempool_amended envAll WG "M" 1 100 0 0
    (by decide) (by decide) (by decide) (by decide)

/-! ## Claim C4: nonce gating -/

/-- A successfully applied non-coinbase transaction carries exactly the
sender's expected nonce at its application point. -/
theorem applyTx_nonce_of_true (tx : Tx) (bal non : StateMap)
    (h : (applyTx tx bal non).1 = true) (hs : tx.sender ≠ COINBASE) :
    tx.nonce = mget non tx.sender := by
  by_contra hc
  unfold applyTx at h
  dsimp only at h
  by_cases h1 : tx.amount ≤ 0
  · rw [if_pos h1] at h
    simp at h
  · rw [if_neg h1, if_neg hs, if_pos hc] at h
    simp at h

theorem applyFold_append :
    ∀ (l1 l2 : List Tx) (bal non : StateMap),
      applyFold (l1 ++ l2) bal non =
        match applyFold l1 bal non with
        | (true, b', n') => applyFold l2 b' n'
        | (false, b', n') => (false, b', n')
  | [], l2, bal, non => rfl
  | t :: r, l2, bal, non => by
    rw [List.cons_append]
    simp only [applyFold]
    rcases ht : applyTx t bal non with ⟨ok, b1, n1⟩
    cases ok
    · rfl
    · dsimp only
      exact applyFold_append r l2 b1 n1

/-- A signed transaction from `A` paying 1 to `B` with nonce 0. -/
def txA0 : Tx := ⟨"A", "B", 1, 0, 5, "pk", "sg"⟩

/-- A signed transaction from `A` paying 1 to `B` with nonce 1. -/
def txA1 : Tx := ⟨"A", "B", 1, 1, 6, "pk", "sg"⟩

/-- The reachable state init → genesis (200 to `A`, 150 to `B`) →
`add_to_mempool txA0`: the mempool holds `A`'s nonce-0 transaction while the
ledger's `expected_nonce("A")` is still 0. -/
def CS4 : Chain := (add_to_mempool envAll WG txA0).2

/-- Counterexample to C4 as stated: `txA1.nonce = 1` differs from the
ledger's current `expected_nonce("A") = 0`, yet `add_to_mempool` admits it,
because admission replays the pending mempool (which consumes nonce 0)
before trying the candidate. -/
theorem mempool_nonce_counterexample :
    (add_to_mempool envAll WG txA0).1 = true ∧
    expected_nonce CS4 "A" = 0 ∧ txA1.nonce = 1 ∧
    (add_to_mempool envAll CS4 txA1).1 = true := by decide

/-- C4 as amended: a non-coinbase transaction is admitted to the mempool
only when replaying the pending mempool against the ledger succeeds and the
candidate's nonce equals the sender's expected nonce *after* that replay;
and inside any block accepted by `add_block`, every non-coinbase
transaction's nonce equals the sender's expected nonce at the point it is
applied during the block replay. -/
theorem nonce_gating_amended (env : Env) (bc : Chain) (tx : Tx) :
    ((add_to_mempool env bc tx).1 = true →
      tx.sender ≠ COINBASE ∧
      ∃ balM nonM,
        applyFold bc.mempool bc.balances bc.next_nonce = (true, balM, nonM) ∧
        tx.nonce = mget nonM tx.sender) ∧
    (∀ (b : Block), (add_block env bc b).1 = true →
      ∀ (pre : List Tx) (t : Tx) (post : List Tx),
        b.transactions = pre ++ t :: post → t.sender ≠ COINBASE →
        t.nonce = mget (applyFold pre bc.balances bc.next_nonce).2.2 t.sender) := by
  constructor
  · intro h
    unfold add_to_mempool at h
    split_ifs at h with h1 h2 h3
    rcases hf : applyFold bc.mempool bc.balances bc.next_nonce with ⟨ok, balM, nonM⟩
    rw [hf] at h
    cases ok
    · simp at h
    · dsimp only at h
      rcases ht : applyTx tx balM nonM with ⟨ok2, b2, n2⟩
      rw [ht] at h
      cases ok2
      · simp at h
      · exact ⟨h3, balM, nonM, rfl,
          applyTx_nonce_of_true tx balM nonM (by rw [ht]) h3⟩
  · intro b h pre t post hdec hs
    rw [add_block_eq] at h
    by_cases hv : verify_block env bc b = true
    · have happ1 : (applyFold b.transactions bc.balances bc.next_nonce).1 = true :=
        ((verify_block_eq_true_iff env bc b).mp hv).2.2.2.2.2.2
      rw [hdec, applyFold_append] at happ1
      rcases hpre : applyFold pre bc.balances bc.next_nonce with ⟨ok0, b0, n0⟩
      rw [hpre] at happ1
      cases ok0
      · simp at happ1
      · dsimp only at happ1
        simp only [applyFold] at happ1
        rcases ht : applyTx t b0 n0 with ⟨ok1, b1, n1⟩
        rw [ht] at happ1
        cases ok1
        · simp at happ1
        · exact applyTx_nonce_of_true t b0 n0 (by rw [ht]) hs
    · rw [if_neg hv] at h
      simp at h

/-- Witness for the amended C4 at the concrete mempool state `CS4`. -/
theorem nonce_gating_amended_witness :
    txA1.sender ≠ COINBASE ∧
    ∃ balM nonM,
      applyFold CS4.mempool CS4.balances CS4.next_nonce = (true, balM, nonM) ∧
      txA1.nonce = mget nonM txA1.sender :=
  (nonce_gating_amended envAll CS4 txA1).1 (by decide)

/-! ## Claim C3: `load` -/

theorem validStep_some_parts {env : Env} {reward : Int} {pos : Nat}
    {prev : Digest} {bal non : StateMap} {b : Block}
    {out : Digest × StateMap × StateMap}
    (h : validStep env reward pos prev bal non b = some out) :
    ivFold env b.transactions bal non = (true, out.2.1, out.2.2) ∧
    out.1 = b.block_hash := by
  unfold validStep at h
  split_ifs at h
  rcases hiv : ivFold env b.transactions bal non with ⟨ok, b2, n2⟩
  rw [hiv] at h
  cases ok
  · simp at h
  · simp only [Option.some.injEq] at h
    subst h
    exact ⟨rfl, rfl⟩

/-- Every block that passes the `is_valid` per-block checks also passes the
(strictly weaker) `load` per-block checks, with the same resulting state. -/
theorem loadRun_of_validRun (env : Env) (reward : Int) :
    ∀ (bs : List Block) (pos : Nat) (prev : Digest) (bal non : StateMap)
      (out : Digest × StateMap × StateMap),
      validRun env reward pos prev bal non bs = some out →
      loadRun env prev bal non bs = some out
  | [], pos, prev, bal, non, out, h => h
  | b :: r, pos, prev, bal, non, out, h => by
    simp only [validRun] at h
    rcases hvs : validStep env reward pos prev bal non b with _ | ⟨p', b', n'⟩ <;>
      rw [hvs] at h
    · simp at h
    · obtain ⟨hprev, hpow, hmerkle⟩ := validStep_some_facts hvs
      obtain ⟨hiv, hp'⟩ := validStep_some_parts hvs
      simp only [loadRun]
      rw [loadStep_eq_some env prev bal non b b' n' hprev hpow hmerkle hiv]
      dsimp only
      have hp'' : p' = b.block_hash := hp'
      rw [← hp'']
      exact loadRun_of_validRun env reward r (pos + 1) p' b' n' out h

/-- The two persisted blocks of the C3 counterexample: a valid coinbase
genesis, then a height-1 block with an *empty* transaction list, correctly
linked, mined (difficulty 0) and merkle-committed. -/
def LB0 : Block :=
  ⟨0, Digest.zero64, 0, 0, 0, Merkle.root [Tx.txid (coinbaseTx "A" 200 0)],
    [coinbaseTx "A" 200 0]⟩

def LB1 : Block := ⟨1, LB0.block_hash, 0, 0, 0, Merkle.root [], []⟩

/-- Counterexample to C3 as stated: `load` does **not** re-check every
structural rule `is_valid` checks — it skips the coinbase placement rules.
It commits (returns true) a persisted chain whose height-1 block has an
empty transaction list, which the committed chain's own `is_valid` then
rejects. -/
theorem load_counterexample :
    (load envAll (Chain.init 0 25) (.parsed [LB0, LB1])).1 = .ret true ∧
    is_valid envAll (load envAll (Chain.init 0 25) (.parsed [LB0, LB1])).2 = false := by
  decide

/-- C3 as amended: `load` replays the parsed chain from an empty baseline,
re-checking prev-hash linkage, proof-of-work, merkle root and
per-transaction verification + application — but not the coinbase
placement rules.  A missing file returns false; an unparseable or malformed
file raises an uncaught exception; a failed replay returns false — each
leaving the prior in-memory state untouched.  Exactly when the whole replay
succeeds (in particular whenever the persisted chain passes the full
`is_valid` checks) it commits the parsed chain, the derived balances, the
derived nonces and an emptied mempool. -/
theorem load_behavior_amended (env : Env) (bc : Chain) (bs : List Block) :
    load env bc .fileNotFound = (.ret false, bc) ∧
    load env bc .parseError = (.exc, bc) ∧
    (loadRun env Digest.zero64 [] [] bs = none →
      load env bc (.parsed bs) = (.ret false, bc)) ∧
    (∀ p bal non, loadRun env Digest.zero64 [] [] bs = some (p, bal, non) →
      load env bc (.parsed bs) =
        (.ret true, ⟨bc.difficulty, bc.reward, bs, [], bal, non⟩)) ∧
    (∀ p bal non, validRun env bc.reward 0 Digest.zero64 [] [] bs = some (p, bal, non) →
      load env bc (.parsed bs) =
        (.ret true, ⟨bc.difficulty, bc.reward, bs, [], bal, non⟩)) := by
  refine ⟨rfl, rfl, ?_, ?_, ?_⟩
  · intro h
    unfold load
    dsimp only
    rw [h]
  · intro p bal non h
    unfold load
    dsimp only
    rw [h]
  · intro p bal non h
    unfold load
    dsimp only
    rw [loadRun_of_validRun env bc.reward bs 0 Digest.zero64 [] [] (p, bal, non) h]

/-- Witness for the amended C3: a single-block valid chain loads and
commits its derived ledger state. -/
theorem load_behavior_amended_witness :
    load envAll (Chain.init 0 25) (.parsed [LB0]) =
      (.ret true, ⟨0, 25, [LB0], [], [("A", 200)], []⟩) :=
  (load_behavior_amended envAll (Chain.init 0 25) [LB0]).2.2.2.2
    LB0.block_hash [("A", 200)] [] (by decide)
